import Mathlib

/-!
Shallow embedding of the genre inference and normalization pipeline of
`auto_tag_rekordbox.py`, together with theorems settling the frozen claims.

Strings are modelled as Lean `String` / `List Char`; Python regular
expressions are translated into explicit decidable matchers over character
lists (word boundaries, greedy digit groups, lazy groups) that denote the
same match semantics as `re.search` for the concrete patterns in the source.
Python `str.lower` / `str.strip` are modelled by the ASCII `Char.toLower`
and whitespace trimming, which agree with Python on the ASCII inputs the
program handles.
-/

set_option maxRecDepth 10000

namespace AutoTag

/-- Characters of a string literal (abbreviation used throughout). -/
def chars (s : String) : List Char := s.data

/-- Python `str.lower` (ASCII). -/
def lowerL (l : List Char) : List Char := l.map Char.toLower

/-- Python `str.upper` (ASCII). -/
def upperL (l : List Char) : List Char := l.map Char.toUpper

/-- Python `str.strip()`: drop leading and trailing whitespace. -/
def trimL (l : List Char) : List Char :=
  ((l.dropWhile Char.isWhitespace).reverse.dropWhile Char.isWhitespace).reverse

/-- Python `s.split(sep)` for a single separator character: splits on every
occurrence, keeping empty pieces (`"".split` gives `[""]`). -/
def splitOnChar (sep : Char) : List Char → List (List Char)
  | [] => [[]]
  | c :: cs =>
    match splitOnChar sep cs with
    | [] => [[]]
    | p :: ps => if c = sep then [] :: p :: ps else (c :: p) :: ps

/-- Python `sep.join(parts)` for a list-of-characters separator. -/
def joinWith (sep : List Char) : List (List Char) → List Char
  | [] => []
  | [p] => p
  | p :: q :: ps => p ++ sep ++ joinWith sep (q :: ps)

/-- Does the list contain the given character (Python `c in s`)? -/
def containsChar (c : Char) (l : List Char) : Bool := l.any (fun a => a = c)

/-- Python substring test `needle in hay`. -/
def isSubstrL (needle hay : List Char) : Bool :=
  (List.range (hay.length + 1)).any fun i => needle.isPrefixOf (hay.drop i)

/-- Stable insertion used by `stableSort`: the incoming element `x` is placed
after every element `y` of the (already sorted) list with `keep y x`. -/
def insertStable (keep : α → α → Bool) (x : α) : List α → List α
  | [] => [x]
  | y :: ys => if keep y x then y :: insertStable keep x ys else x :: y :: ys

/-- Stable sort (insertion sort, elements inserted left to right), modelling
Python's stable `sorted`.  `keep y x = true` means `y` may stay before `x`;
for a key function `k`, `keep y x := k y ≤ k x` reproduces
`sorted(l, key=k)`. -/
def stableSort (keep : α → α → Bool) (l : List α) : List α :=
  l.foldl (fun acc x => insertStable keep x acc) []

/-- Lexicographic `≤` on the lowercased characters (Python's string
comparison applied to `x.lower()` keys: code-point order). -/
def leLower : List Char → List Char → Bool
  | [], _ => true
  | _ :: _, [] => false
  | a :: as, b :: bs =>
    if a.toLower.toNat = b.toLower.toNat then leLower as bs
    else decide (a.toLower.toNat < b.toLower.toNat)

/-- Comparison used by `sorted(genres, key=lambda x: x.lower())`. -/
def keepLowerLe (y x : List Char) : Bool := leLower y x

/-- Comparison used by `sorted(genre_list, key=len, reverse=True)`. -/
def keepLenDesc (y x : List Char) : Bool := decide (x.length ≤ y.length)

/-! ### Regular-expression building blocks

Python's `\w` (ASCII), `\b`, `\d`, `\s` for the concrete patterns in the
source.  A position `i` in a list `s` ranges over `0 .. s.length`; positions
outside the list count as non-word characters for `\b`. -/

/-- Python `\w` (ASCII portion). -/
def isWordChar (c : Char) : Bool := c.isAlphanum || c = '_'

/-- The character at position `i` is absent or a non-word character. -/
def nonWordAt (s : List Char) (i : Nat) : Bool :=
  match s.get? i with
  | none => true
  | some c => !(isWordChar c)

/-- Position `i` is the start of the string or preceded by a non-word
character (the `\b` condition before a word character at `i`). -/
def nonWordBefore (s : List Char) (i : Nat) : Bool :=
  match i with
  | 0 => true
  | j + 1 => nonWordAt s j

/-- Exactly `n` decimal digits (Python `\d{n}`) starting at position `i`. -/
def digitsAt (s : List Char) (i n : Nat) : Bool :=
  (List.range n).all fun k =>
    match s.get? (i + k) with
    | some c => c.isDigit
    | none => false

/-- The character at position `i` is exactly `c`. -/
def charAt (s : List Char) (i : Nat) (c : Char) : Bool := s.get? i == some c

/-- Numeric value of the `n` digits starting at position `i`. -/
def valAt (s : List Char) (i n : Nat) : Nat :=
  (List.range n).foldl (fun acc k => acc * 10 + ((s.get? (i + k)).getD '0').toNat - '0'.toNat) 0

/-- A run of exactly `k` whitespace characters (Python `\s`) at position `p`. -/
def wsRunAt (s : List Char) (p k : Nat) : Bool :=
  ((s.drop p).take k).length == k && ((s.drop p).take k).all Char.isWhitespace

/-! ### `detect_transition`

Source pattern: `re.search(r'\b(\d{2,3})-(\d{2,3})\b', title)`, then the
*first* match's two numbers are checked against the BPM bounds `60..200`.
`re.search` returns the leftmost match; within one start position the
`\d{2,3}` groups are greedy (three digits tried before two). -/

/-- Greedy attempt of `(\d{2,3})-(\d{2,3})\b` at position `i` with the first
group of width `d1`. -/
def tryBpmPair (s : List Char) (i d1 : Nat) : Option (Nat × Nat) :=
  if digitsAt s i d1 && charAt s (i + d1) '-' then
    if digitsAt s (i + d1 + 1) 3 && nonWordAt s (i + d1 + 4) then
      some (valAt s i d1, valAt s (i + d1 + 1) 3)
    else if digitsAt s (i + d1 + 1) 2 && nonWordAt s (i + d1 + 3) then
      some (valAt s i d1, valAt s (i + d1 + 1) 2)
    else none
  else none

/-- Match of the whole pattern `\b(\d{2,3})-(\d{2,3})\b` at position `i`,
greedy group widths (3 before 2), returning the two numbers. -/
def matchBpmAt (s : List Char) (i : Nat) : Option (Nat × Nat) :=
  if nonWordBefore s i then
    match tryBpmPair s i 3 with
    | some r => some r
    | none => tryBpmPair s i 2
  else none

/-- Leftmost match of the BPM pattern (the match `re.search` returns). -/
def firstBpmMatch (s : List Char) : Option (Nat × Nat) :=
  (List.range (s.length + 1)).findSome? fun i => matchBpmAt s i

/-- BPM plausibility bounds `60 <= b <= 200`. -/
def inBpmRange (b : Nat) : Bool := 60 ≤ b && b ≤ 200

/-- Embedding of `detect_transition(title)`: the leftmost match of the two-number pattern
is range-checked; no further matches are tried. -/
def detect_transition (title : String) : Bool :=
  match firstBpmMatch title.data with
  | some (b1, b2) => inBpmRange b1 && inBpmRange b2
  | none => false

/-- Claim-side predicate for C3: the title *contains* (anywhere) two
hyphen-separated integers of 2–3 digits, both within `60..200`. -/
def specBpmPairB (s : List Char) : Bool :=
  (List.range (s.length + 1)).any fun i =>
    [2, 3].any fun d1 => [2, 3].any fun d2 =>
      nonWordBefore s i && digitsAt s i d1 && charAt s (i + d1) '-' &&
      digitsAt s (i + d1 + 1) d2 && nonWordAt s (i + d1 + 1 + d2) &&
      inBpmRange (valAt s i d1) && inBpmRange (valAt s (i + d1 + 1) d2)

/-! ### `detect_club_mix`

Source patterns (searched on the lowercased title):
`\bclub\s+mix\b`, `\bclub\s+version\b`, `\bclub\s+edit\b`, `\bclub\s+remix\b`.
A match exists iff at some position a word-bounded `club`, at least one
whitespace character, and a word-bounded second keyword line up. -/

def clubSecondWords : List (List Char) :=
  [chars "mix", chars "version", chars "edit", chars "remix"]

def detect_club_mix (title : String) : Bool :=
  let s := lowerL title.data
  clubSecondWords.any fun w =>
    (List.range (s.length + 1)).any fun i =>
      nonWordBefore s i && (chars "club").isPrefixOf (s.drop i) &&
      (List.range (s.length + 1)).any fun k =>
        wsRunAt s (i + 4) (k + 1) && w.isPrefixOf (s.drop (i + 4 + (k + 1))) &&
        nonWordAt s (i + 4 + (k + 1) + w.length)

/-! ### `extract_remixer_from_title`

Source patterns (with `re.IGNORECASE`), parenthesis pattern tried first:
`\(([^)]+?)\s+(?:Remix|Edit|Bootleg|Flip|VIP|Rework|Refix|Mix)\)` and the
same with square brackets.  The group is lazy, so the *shortest* group that
allows the rest of the pattern to match is captured; `re.search` uses the
leftmost position where any match exists.  The captured text is stripped, a
leading `DJ ` / `dj ` prefix removed, and an empty result becomes `None`. -/

def remixKeywords : List (List Char) :=
  [chars "remix", chars "edit", chars "bootleg", chars "flip", chars "vip",
   chars "rework", chars "refix", chars "mix"]

/-- Continuation `\s+(?:Remix|...)close` starting at position `p` (`sLow` is the
lowercased copy of `s` used for the case-insensitive keyword match). -/
def completesAt (s sLow : List Char) (closeC : Char) (p : Nat) : Bool :=
  (List.range s.length).any fun k =>
    wsRunAt s p (k + 1) &&
    remixKeywords.any fun kw =>
      kw.isPrefixOf (sLow.drop (p + (k + 1))) &&
      charAt s (p + (k + 1) + kw.length) closeC

/-- Match of one bracketed-span pattern at position `i`: an opening
delimiter, the shortest non-empty group without the closing delimiter, then
whitespace, a keyword, and the closing delimiter.  Returns the group. -/
def spanGroupAt (s sLow : List Char) (openC closeC : Char) (i : Nat) :
    Option (List Char) :=
  if charAt s i openC then
    (List.range s.length).findSome? fun g =>
      let grp := (s.drop (i + 1)).take (g + 1)
      if grp.length == g + 1 && grp.all (fun c => c != closeC) &&
          completesAt s sLow closeC (i + 1 + (g + 1)) then
        some grp
      else none
  else none

/-- Leftmost match of one span pattern over the whole title. -/
def findSpanGroup (s : List Char) (openC closeC : Char) : Option (List Char) :=
  (List.range s.length).findSome? fun i => spanGroupAt s (lowerL s) openC closeC i

/-- Python `re.sub(r'^(?:DJ\s+|dj\s+)', '', remixer)`: strip a leading `DJ`/`dj`
followed by whitespace (the whitespace run is consumed greedily). -/
def stripDJTail (rest orig : List Char) : List Char :=
  match rest with
  | [] => orig
  | c :: _ => if c.isWhitespace then rest.dropWhile Char.isWhitespace else orig

def stripDJ (r : List Char) : List Char :=
  match r with
  | 'D' :: 'J' :: rest => stripDJTail rest r
  | 'd' :: 'j' :: rest => stripDJTail rest r
  | _ => r

/-- Embedding of `extract_remixer_from_title(title)`. -/
def extract_remixer_from_title (title : String) : Option String :=
  match findSpanGroup title.data '(' ')' with
  | some grp =>
    let r := stripDJ (trimL grp)
    if r.isEmpty then none else some (String.mk r)
  | none =>
    match findSpanGroup title.data '[' ']' with
    | some grp =>
      let r := stripDJ (trimL grp)
      if r.isEmpty then none else some (String.mk r)
    | none => none

/-! ### `validate_genre`

The forbidden compound patterns of the source are
`\b(dance|edm|electronic)\b.*\b(dance|edm|electronic)\b` — two word-bounded
occurrences, the second starting at or after the end of the first, with no
newline between them (Python `.` does not match `\n`) — and
`\bedit\b$`, `\bmix\b$`, `\bremix\b$` — the component ends in that
word-bounded word (the component is already stripped when matched, so `$`
is exactly the end of the string). -/

/-- A word-bounded occurrence of `w` starting at position `i` of `s`. -/
def wordOccAt (s w : List Char) (i : Nat) : Bool :=
  w.isPrefixOf (s.drop i) && nonWordBefore s i && nonWordAt s (i + w.length)

/-- The three vague words of the first forbidden pattern. -/
def vagueWords : List (List Char) := [chars "dance", chars "edm", chars "electronic"]

/-- No `'\n'` in `s` between positions `a` (inclusive) and `b` (exclusive). -/
def noNewlineSeg (s : List Char) (a b : Nat) : Bool :=
  ((s.drop a).take (b - a)).all fun c => c != '\n'

/-- Denotation of `re.search(r'\b(dance|edm|electronic)\b.*\b(dance|edm|electronic)\b', s)`. -/
def patternTwoVague (s : List Char) : Bool :=
  (List.range (s.length + 1)).any fun i => vagueWords.any fun w1 =>
    wordOccAt s w1 i &&
    (List.range (s.length + 1)).any fun j => vagueWords.any fun w2 =>
      decide (i + w1.length ≤ j) && noNewlineSeg s (i + w1.length) j && wordOccAt s w2 j

/-- Denotation of `re.search(r'\bw\b$', s)` for a stripped `s`: `s` ends in
the word-bounded word `w`. -/
def endsWithWord (s w : List Char) : Bool :=
  decide (w.length ≤ s.length) && w.isPrefixOf (s.drop (s.length - w.length)) &&
  nonWordBefore s (s.length - w.length)

/-- The `forbidden_patterns` loop of `validate_genre` (any pattern matches). -/
def forbidden_pattern (s : List Char) : Bool :=
  patternTwoVague s || endsWithWord s (chars "edit") || endsWithWord s (chars "mix") ||
  endsWithWord s (chars "remix")

/-- Claim-side reading of the first forbidden pattern (used by C2): two
word-bounded occurrences of the vague words, the second starting at or after
the end of the first, with no newline in between. -/
def TwoVagueOcc (s : List Char) : Prop :=
  ∃ w1 w2 i j, w1 ∈ vagueWords ∧ w2 ∈ vagueWords ∧ wordOccAt s w1 i = true ∧
    i + w1.length ≤ j ∧ noNewlineSeg s (i + w1.length) j = true ∧ wordOccAt s w2 j = true

/-- The exact-match denylist `vague_genres`. -/
def vagueGenres : List String := ["edm", "dance", "electronic", "club music", "music"]

/-- Body of the per-component loop of `validate_genre`: does the component
`g` (already stripped by the split) survive all rejection rules? -/
def component_survives (remixer artist : Option String) (g : String) : Bool :=
  let glC := lowerL (trimL g.data)
  let gl := String.mk glC
  if vagueGenres.contains gl then false
  else if forbidden_pattern glC then false
  else if (match remixer with
           | some r => isSubstrL (lowerL r.data) glC
           | none => false) then false
  else if (match artist with
           | some a => decide (a.length > 3) && isSubstrL (lowerL a.data) glC
           | none => false) then false
  else if gl == "club" then false
  else true

/-- Embedding of `validate_genre(genre_string, title, artist)`: filters the `/`-separated
components and rejoins the survivors, or `None` if none survive. -/
def validate_genre (genre_string title : String) (artist : Option String) :
    Option String :=
  if genre_string == "" then none
  else
    let remixer := extract_remixer_from_title title
    let genres := (splitOnChar '/' genre_string.data).map fun p => String.mk (trimL p)
    let filtered := genres.filter (component_survives remixer artist)
    if filtered.isEmpty then none
    else some (String.mk (joinWith (chars " / ") (filtered.map String.data)))

/-! ### `sort_genre` and `normalize_genre_case` -/

/-- Embedding of `sort_genre(genre_string)`: no-op without `/`; otherwise split on `/`,
strip, sort stably by the lowercased part, and rejoin with `" / "`. -/
def sort_genre (genre_string : String) : String :=
  if containsChar '/' genre_string.data then
    String.mk (joinWith (chars " / ")
      (stableSort keepLowerLe ((splitOnChar '/' genre_string.data).map trimL)))
  else genre_string

/-- Python `str.capitalize()`: first character uppercased, the rest
lowercased. -/
def pyCapitalize (w : List Char) : List Char :=
  match w with
  | [] => []
  | c :: rest => c.toUpper :: lowerL rest

/-- Python `str.split()` with no argument: whitespace-delimited words,
empties dropped. -/
def wordsOfAux : List Char → List Char → List (List Char)
  | [], cur => if cur.isEmpty then [] else [cur.reverse]
  | c :: rest, cur =>
    if c.isWhitespace then
      if cur.isEmpty then wordsOfAux rest [] else cur.reverse :: wordsOfAux rest []
    else wordsOfAux rest (c :: cur)

def wordsOf (l : List Char) : List (List Char) := wordsOfAux l []

/-- One part of `normalize_genre_case`. -/
def normalizePart (g : List Char) : List Char :=
  if ["EDM", "DNB", "R&B", "UK", "VIP"].contains (String.mk (upperL g)) then upperL g
  else if String.mk (lowerL g) == "k-pop" then chars "K-Pop"
  else if containsChar '&' g then
    joinWith (chars " & ") ((splitOnChar '&' g).map fun w => pyCapitalize (trimL w))
  else joinWith (chars " ") ((wordsOf g).map pyCapitalize)

/-- Embedding of `normalize_genre_case(genre)`. -/
def normalize_genre_case (genre : String) : String :=
  if genre == "" then genre
  else
    String.mk (joinWith (chars " / ")
      ((splitOnChar '/' genre.data).map fun p => normalizePart (trimL p)))

/-! ### `parse_response` -/

/-- Typed record built by `parse_response` (all fields optional, as the
Python dict starts empty). -/
structure Info where
  is_remix : Option Bool := none
  genre : Option String := none
  artists : Option String := none
  year : Option String := none
  situation : Option String := none
  commercial : Option String := none
deriving DecidableEq

def isRemixLabel : List Char := chars "Is Remix:"
def genreLabel : List Char := chars "Genre:"
def artistsLabel : List Char := chars "Original Artists:"
def yearLabel : List Char := chars "Original Song Release:"
def situationLabel : List Char := chars "Situation:"
def commercialLabel : List Char := chars "Commercial Friendly:"

/-- Python `line.split(":", 1)[1].strip()` for a line starting with the given
label (the label's own colon is the first colon of the line). -/
def payloadAfter (label l : List Char) : List Char := trimL (l.drop label.length)

/-- One iteration of the `for line in response.splitlines()` loop. -/
def updLine (st : Info) (l : List Char) : Info :=
  if isRemixLabel.isPrefixOf l then
    { st with is_remix := some (String.mk (lowerL (payloadAfter isRemixLabel l)) == "yes") }
  else if genreLabel.isPrefixOf l then
    { st with genre := some (sort_genre (String.mk (payloadAfter genreLabel l))) }
  else if artistsLabel.isPrefixOf l then
    { st with artists := some (String.mk (payloadAfter artistsLabel l)) }
  else if yearLabel.isPrefixOf l then
    { st with year := some (String.mk (payloadAfter yearLabel l)) }
  else if situationLabel.isPrefixOf l then
    { st with situation := some (String.mk (payloadAfter situationLabel l)) }
  else if commercialLabel.isPrefixOf l then
    { st with commercial := some (String.mk (payloadAfter commercialLabel l)) }
  else st

/-- Python `str.splitlines()`: first normalize `\r\n` and `\r` to `\n` … -/
def normEOLAux : List Char → Bool → List Char
  | [], _ => []
  | c :: rest, afterCR =>
    if c = '\n' then
      if afterCR then normEOLAux rest false else '\n' :: normEOLAux rest false
    else if c = '\r' then '\n' :: normEOLAux rest true
    else c :: normEOLAux rest false

/-- Then split on `\n`, dropping the final piece when it is empty
(`"".splitlines() = []`, `"a\n".splitlines() = ["a"]`). -/
def splitlinesL (l : List Char) : List (List Char) :=
  let ps := splitOnChar '\n' (normEOLAux l false)
  if ps.getLast? == some [] then ps.dropLast else ps

/-- Embedding of `parse_response(response)`. -/
def parse_response (response : String) : Info :=
  (splitlinesL response.data).foldl updLine {}

/-- The last line of `lines` starting with `L` (later lines overwrite the
dict entry in the source's loop). -/
def lastStarting (L : List Char) (lines : List (List Char)) : Option (List Char) :=
  lines.foldl (fun acc l => if L.isPrefixOf l then some l else acc) none

/-- A line recognized by any of the six labels. -/
def anyLabel (l : List Char) : Bool :=
  isRemixLabel.isPrefixOf l || genreLabel.isPrefixOf l || artistsLabel.isPrefixOf l ||
  yearLabel.isPrefixOf l || situationLabel.isPrefixOf l || commercialLabel.isPrefixOf l

/-- The downstream consumption of the `Commercial Friendly` field
(`tag_rekordbox`: `commercial and commercial.lower() == "yes"`, with an
absent field passed as `""`). -/
def commercialFlag (info : Info) : Bool :=
  match info.commercial with
  | none => false
  | some c => c != "" && String.mk (lowerL c.data) == "yes"

/-! ### `determine_energy_rating` and the rating part of `apply_metadata` -/

/-- Python `max` over the collected ratings (`None` when none matched). -/
def maxList : List Nat → Option Nat
  | [] => none
  | x :: xs => some (xs.foldl Nat.max x)

/-- Rating of one lowercased component: pass 1 (exact membership, first
level in map order), then pass 2 (substring against the level's list sorted
by length descending, first level in map order). -/
def rateComponent (energy_map : List (Nat × List String)) (c : String) : Option Nat :=
  match energy_map.findSome? (fun lv => if lv.2.contains c then some lv.1 else none) with
  | some r => some r
  | none =>
    energy_map.findSome? fun lv =>
      if (stableSort keepLenDesc (lv.2.map String.data)).any (fun g0 => isSubstrL g0 c.data)
      then some lv.1 else none

/-- Embedding of `determine_energy_rating(genre, energy_map)` (map keys already parsed
to their numeric levels, map iteration order preserved as list order). -/
def determine_energy_rating (genre : String) (energy_map : List (Nat × List String)) :
    Option Nat :=
  let genres := (splitOnChar '/' genre.data).map fun p => String.mk (lowerL (trimL p))
  maxList (genres.filterMap (rateComponent energy_map))

/-- Variant of `rateComponent` without the length-descending sort (claim C10). -/
def rateComponentNoSort (energy_map : List (Nat × List String)) (c : String) : Option Nat :=
  match energy_map.findSome? (fun lv => if lv.2.contains c then some lv.1 else none) with
  | some r => some r
  | none =>
    energy_map.findSome? fun lv =>
      if (lv.2.map String.data).any (fun g0 => isSubstrL g0 c.data)
      then some lv.1 else none

/-- Variant of `determine_energy_rating` with the per-level sort omitted (claim C10). -/
def determine_energy_rating_nosort (genre : String)
    (energy_map : List (Nat × List String)) : Option Nat :=
  let genres := (splitOnChar '/' genre.data).map fun p => String.mk (lowerL (trimL p))
  maxList (genres.filterMap (rateComponentNoSort energy_map))

/-- The rating computation of `apply_metadata`: rating stays `None` for an
empty genre, mashups return early with `None`, otherwise
`determine_energy_rating` decides. -/
def apply_metadata_rating (genre : String) (energy_map : List (Nat × List String)) :
    Option Nat :=
  if genre == "" then none
  else if isSubstrL (chars "mashup") (lowerL genre.data) then none
  else determine_energy_rating genre energy_map

/-! ### The per-track genre pipeline of `main` (lines 901–971)

`chosen` is the genre selected by the reconciliation step (title-embedded,
SoundCloud, or the AI genre itself); `gemini` is the remembered AI genre
kept as fallback.  The ledger models `processed_songs`. -/

/-- Call-site truthiness of `validate_genre`'s result (`if not validated_genre`
treats both `None` and `""` as empty). -/
def truthyOpt (o : Option String) : Option String :=
  match o with
  | some s => if s == "" then none else some s
  | none => none

/-- Result of one track: the genre written to the tag store by
`apply_metadata` (if reached), whether the library database was tagged, and
the processed-songs ledger afterwards. -/
structure TrackResult where
  id3_genre : Option String
  rekordbox_tagged : Bool
  ledger : List String
deriving DecidableEq

/-- Lines 920–938: normalization and the Club / Transition suffixes
appended to the validated genre. -/
def final_genre (title validated : String) : String :=
  let g1 := if validated != "" then normalize_genre_case validated else validated
  let g2 := if detect_club_mix title && g1 != "" &&
               !(isSubstrL (chars "club") (lowerL g1.data)) then g1 ++ " / Club" else g1
  let g3 := if detect_transition title && g2 != "" &&
               !(isSubstrL (chars "transition") (lowerL g2.data)) then g2 ++ " / Transition"
            else g2
  g3

/-- Lines 920–971: everything after the validation phase. -/
def post_validation (energy_map : List (Nat × List String)) (ledger : List String)
    (title g0 : String) : TrackResult :=
  let g3 := final_genre title g0
  if String.mk (lowerL g3.data) == "unknown" || g3 == "" then ⟨none, false, ledger⟩
  else
    let rating := apply_metadata_rating g3 energy_map
    if rating == none && !(isSubstrL (chars "mashup") (lowerL g3.data)) then
      ⟨some g3, false, ledger⟩
    else ⟨some g3, true, ledger ++ [title]⟩

/-- Lines 901–971: the validation phase (with the fallback retry) followed
by `post_validation`.  A `continue` in the source is the skipped result
`⟨none, false, ledger⟩`: nothing written, ledger untouched. -/
def process_track (energy_map : List (Nat × List String)) (ledger : List String)
    (title : String) (artist : Option String) (chosen gemini : String) : TrackResult :=
  if chosen != "" then
    match truthyOpt (validate_genre chosen title artist) with
    | some v => post_validation energy_map ledger title v
    | none =>
      if gemini != "" && String.mk (lowerL gemini.data) != String.mk (lowerL chosen.data) then
        match truthyOpt (validate_genre gemini title artist) with
        | some v => post_validation energy_map ledger title v
        | none => ⟨none, false, ledger⟩
      else ⟨none, false, ledger⟩
  else post_validation energy_map ledger title chosen

/-! ## Helper lemmas about `stableSort` -/

theorem insertStable_any (keep : α → α → Bool) (p : α → Bool) (x : α)
    (l : List α) : (insertStable keep x l).any p = (p x || l.any p) := by
  induction l with
  | nil => simp [insertStable]
  | cons y ys ih =>
    simp only [insertStable]
    split
    · simp only [List.any_cons, ih]
      cases p x <;> cases p y <;> simp
    · simp [List.any_cons]

theorem foldl_insertStable_any (keep : α → α → Bool) (p : α → Bool) :
    ∀ (l acc : List α),
      ((l.foldl (fun acc x => insertStable keep x acc) acc).any p) =
        (acc.any p || l.any p) := by
  intro l
  induction l with
  | nil => intro acc; simp
  | cons x xs ih =>
    intro acc
    simp only [List.foldl_cons, ih, insertStable_any, List.any_cons]
    cases p x <;> cases acc.any p <;> simp

theorem stableSort_any (keep : α → α → Bool) (p : α → Bool) (l : List α) :
    (stableSort keep l).any p = l.any p := by
  simp [stableSort, foldl_insertStable_any]

theorem insertStable_mem (keep : α → α → Bool) (x z : α) (l : List α) :
    z ∈ insertStable keep x l ↔ z = x ∨ z ∈ l := by
  induction l with
  | nil => simp [insertStable]
  | cons y ys ih =>
    simp only [insertStable]
    split
    · simp only [List.mem_cons, ih]
      try tauto
    · simp only [List.mem_cons]
      try tauto

theorem insertStable_length (keep : α → α → Bool) (x : α) (l : List α) :
    (insertStable keep x l).length = l.length + 1 := by
  induction l with
  | nil => rfl
  | cons y ys ih =>
    unfold insertStable
    split
    · simp [ih]
    · simp

theorem stableSort_length (keep : α → α → Bool) (l : List α) :
    (stableSort keep l).length = l.length := by
  have main : ∀ (l acc : List α),
      (l.foldl (fun acc x => insertStable keep x acc) acc).length =
        acc.length + l.length := by
    intro l
    induction l with
    | nil => intro acc; simp
    | cons x xs ih =>
      intro acc
      rw [List.foldl_cons, ih, insertStable_length, List.length_cons]
      omega
  simpa [stableSort] using main l []

theorem stableSort_mem (keep : α → α → Bool) (l : List α) (z : α) :
    z ∈ stableSort keep l ↔ z ∈ l := by
  have main : ∀ (l acc : List α),
      z ∈ l.foldl (fun acc x => insertStable keep x acc) acc ↔ z ∈ acc ∨ z ∈ l := by
    intro l
    induction l with
    | nil => intro acc; simp
    | cons x xs ih =>
      intro acc
      simp only [List.foldl_cons, ih, insertStable_mem, List.mem_cons]
      tauto
  simpa [stableSort] using main l []

/-! ## Sortedness of `stableSort` (for claim C8) -/

theorem insertStable_pairwise (keep : α → α → Bool)
    (htot : ∀ a b, keep a b = true ∨ keep b a = true)
    (htr : ∀ a b c, keep a b = true → keep b c = true → keep a c = true)
    (x : α) (l : List α) (hl : l.Pairwise (fun a b => keep a b = true)) :
    (insertStable keep x l).Pairwise (fun a b => keep a b = true) := by
  induction l with
  | nil => simp [insertStable]
  | cons y ys ih =>
    rw [List.pairwise_cons] at hl
    obtain ⟨hy, hys⟩ := hl
    unfold insertStable
    by_cases h : keep y x = true
    · rw [if_pos h, List.pairwise_cons]
      refine ⟨?_, ih hys⟩
      intro z hz
      rcases (insertStable_mem keep x z ys).mp hz with rfl | hz'
      · exact h
      · exact hy z hz'
    · rw [if_neg h, List.pairwise_cons]
      have hx : keep x y = true := (htot x y).resolve_right h
      refine ⟨?_, List.pairwise_cons.mpr ⟨hy, hys⟩⟩
      intro z hz
      rcases List.mem_cons.mp hz with rfl | hz'
      · exact hx
      · exact htr x y z hx (hy z hz')

theorem stableSort_pairwise (keep : α → α → Bool)
    (htot : ∀ a b, keep a b = true ∨ keep b a = true)
    (htr : ∀ a b c, keep a b = true → keep b c = true → keep a c = true)
    (l : List α) :
    (stableSort keep l).Pairwise (fun a b => keep a b = true) := by
  have main : ∀ (l acc : List α), acc.Pairwise (fun a b => keep a b = true) →
      (l.foldl (fun acc x => insertStable keep x acc) acc).Pairwise
        (fun a b => keep a b = true) := by
    intro l
    induction l with
    | nil => intro acc h; exact h
    | cons x xs ih =>
      intro acc h
      exact ih _ (insertStable_pairwise keep htot htr x acc h)
  exact main l [] (by simp)

theorem insertStable_eq_append (keep : α → α → Bool) (x : α) (l : List α)
    (h : ∀ y ∈ l, keep y x = true) : insertStable keep x l = l ++ [x] := by
  induction l with
  | nil => rfl
  | cons y ys ih =>
    unfold insertStable
    rw [if_pos (h y (by simp)), ih (fun z hz => h z (by simp [hz]))]
    rfl

theorem foldl_insert_sorted (keep : α → α → Bool) :
    ∀ (l acc : List α), (acc ++ l).Pairwise (fun a b => keep a b = true) →
      l.foldl (fun acc x => insertStable keep x acc) acc = acc ++ l := by
  intro l
  induction l with
  | nil => intro acc _; simp
  | cons x xs ih =>
    intro acc h
    rw [List.foldl_cons]
    have hx : ∀ y ∈ acc, keep y x = true := by
      intro y hy
      exact (List.pairwise_append.mp h).2.2 y hy x (by simp)
    rw [insertStable_eq_append keep x acc hx, ih (acc ++ [x]) (by simpa using h)]
    simp

theorem stableSort_idem (keep : α → α → Bool)
    (htot : ∀ a b, keep a b = true ∨ keep b a = true)
    (htr : ∀ a b c, keep a b = true → keep b c = true → keep a c = true)
    (l : List α) : stableSort keep (stableSort keep l) = stableSort keep l := by
  have h := stableSort_pairwise keep htot htr l
  have h2 := foldl_insert_sorted keep (stableSort keep l) [] (by simpa using h)
  simpa [stableSort] using h2

/-! ## Totality and transitivity of the lowercase comparison (claim C8) -/

theorem leLower_total : ∀ a b : List Char, leLower a b = true ∨ leLower b a = true := by
  intro a
  induction a with
  | nil => intro b; left; rfl
  | cons x xs ih =>
    intro b
    cases b with
    | nil => right; rfl
    | cons y ys =>
      unfold leLower
      by_cases e : x.toLower.toNat = y.toLower.toNat
      · rw [if_pos e, if_pos e.symm]
        exact ih ys
      · have e' : ¬ y.toLower.toNat = x.toLower.toNat := fun h => e h.symm
        rw [if_neg e, if_neg e']
        rcases Nat.lt_or_ge x.toLower.toNat y.toLower.toNat with h | h
        · left; exact decide_eq_true h
        · right; exact decide_eq_true (by omega)

theorem leLower_trans :
    ∀ a b c : List Char, leLower a b = true → leLower b c = true →
      leLower a c = true := by
  intro a
  induction a with
  | nil => intro b c _ _; rfl
  | cons x xs ih =>
    intro b c h1 h2
    cases b with
    | nil => exact absurd h1 (by simp [leLower])
    | cons y ys =>
      cases c with
      | nil => exact absurd h2 (by simp [leLower])
      | cons z zs =>
        unfold leLower at h1 h2 ⊢
        by_cases e1 : x.toLower.toNat = y.toLower.toNat
        · rw [if_pos e1] at h1
          by_cases e2 : y.toLower.toNat = z.toLower.toNat
          · rw [if_pos e2] at h2
            rw [if_pos (e1.trans e2)]
            exact ih ys zs h1 h2
          · rw [if_neg e2] at h2
            have hlt : y.toLower.toNat < z.toLower.toNat := of_decide_eq_true h2
            rw [if_neg (by omega)]
            exact decide_eq_true (by omega)
        · rw [if_neg e1] at h1
          have hlt1 : x.toLower.toNat < y.toLower.toNat := of_decide_eq_true h1
          by_cases e2 : y.toLower.toNat = z.toLower.toNat
          · rw [if_neg (by omega)]
            exact decide_eq_true (by omega)
          · rw [if_neg e2] at h2
            have hlt2 : y.toLower.toNat < z.toLower.toNat := of_decide_eq_true h2
            rw [if_neg (by omega)]
            exact decide_eq_true (by omega)

theorem keepLowerLe_total : ∀ a b : List Char,
    keepLowerLe a b = true ∨ keepLowerLe b a = true := leLower_total

theorem keepLowerLe_trans : ∀ a b c : List Char,
    keepLowerLe a b = true → keepLowerLe b c = true → keepLowerLe a c = true :=
  leLower_trans

/-! ## Trimming lemmas (claim C8) -/

theorem dropWhile_head_false (p : α → Bool) :
    ∀ (l : List α) (y : α) (ys : List α), l.dropWhile p = y :: ys → p y = false := by
  intro l
  induction l with
  | nil => intro y ys h; simp [List.dropWhile] at h
  | cons a as ih =>
    intro y ys h
    rw [List.dropWhile_cons] at h
    split at h
    · exact ih y ys h
    · next hpa =>
      injection h with h1 _
      subst h1
      simpa using hpa

theorem dropWhile_eq_self_of_head (p : α → Bool) (l : List α)
    (h : ∀ c, l.head? = some c → p c = false) : l.dropWhile p = l := by
  cases l with
  | nil => rfl
  | cons a as =>
    rw [List.dropWhile_cons, if_neg]
    simp [h a rfl]

theorem getLast?_dropWhile (p : α → Bool) :
    ∀ l : List α, l.dropWhile p ≠ [] → (l.dropWhile p).getLast? = l.getLast? := by
  intro l
  induction l with
  | nil => intro h; exact absurd rfl h
  | cons a as ih =>
    intro h
    rw [List.dropWhile_cons] at h ⊢
    by_cases hpa : p a = true
    · rw [if_pos hpa] at h ⊢
      rw [ih h]
      have has : as ≠ [] := by
        intro he
        rw [he] at h
        simp [List.dropWhile] at h
      cases as with
      | nil => exact absurd rfl has
      | cons b bs => rw [List.getLast?_cons_cons]
    · rw [if_neg hpa] at h ⊢

theorem trimL_cons_space (l : List Char) : trimL (' ' :: l) = trimL l := by
  have hws : Char.isWhitespace ' ' = true := by decide
  simp [trimL, List.dropWhile_cons, hws]

theorem trimL_append_space (l : List Char) : trimL (l ++ [' ']) = trimL l := by
  unfold trimL
  rw [List.dropWhile_append]
  by_cases h : (l.dropWhile Char.isWhitespace).isEmpty = true
  · rw [if_pos h]
    have h3 : l.dropWhile Char.isWhitespace = [] := by
      cases hd : l.dropWhile Char.isWhitespace with
      | nil => rfl
      | cons a as => rw [hd] at h; simp at h
    have h2 : ([' '] : List Char).dropWhile Char.isWhitespace = [] := by decide
    rw [h2, h3]
  · rw [if_neg h, List.reverse_append]
    have hws : Char.isWhitespace ' ' = true := by decide
    simp [List.dropWhile_cons, hws]

/-- The head of a trimmed string is not whitespace. -/
theorem trimL_head_not_ws (l : List Char) :
    ∀ c, (trimL l).head? = some c → Char.isWhitespace c = false := by
  intro c hc
  unfold trimL at hc
  rw [List.head?_reverse] at hc
  set A := l.dropWhile Char.isWhitespace with hA
  set B := A.reverse.dropWhile Char.isWhitespace with hB
  have hBne : B ≠ [] := by
    intro h
    rw [h] at hc
    simp at hc
  have h2 : B.getLast? = A.reverse.getLast? := by
    rw [hB]
    exact getLast?_dropWhile Char.isWhitespace A.reverse (hB ▸ hBne)
  rw [h2, List.getLast?_reverse] at hc
  cases hAc : A with
  | nil => rw [hAc] at hc; simp at hc
  | cons a as =>
    rw [hAc] at hc
    simp only [List.head?_cons, Option.some.injEq] at hc
    subst hc
    exact dropWhile_head_false Char.isWhitespace l a as (hA ▸ hAc)

/-- The last character of a trimmed string is not whitespace. -/
theorem trimL_getLast_not_ws (l : List Char) :
    ∀ c, (trimL l).getLast? = some c → Char.isWhitespace c = false := by
  intro c hc
  unfold trimL at hc
  rw [List.getLast?_reverse] at hc
  cases hd : (l.dropWhile Char.isWhitespace).reverse.dropWhile Char.isWhitespace with
  | nil => rw [hd] at hc; simp at hc
  | cons b bs =>
    rw [hd] at hc
    simp only [List.head?_cons, Option.some.injEq] at hc
    subst hc
    exact dropWhile_head_false Char.isWhitespace _ b bs hd

/-- A string whose first and last characters are not whitespace is fixed by
trimming. -/
theorem trimL_eq_self (t : List Char)
    (h1 : ∀ c, t.head? = some c → Char.isWhitespace c = false)
    (h2 : ∀ c, t.getLast? = some c → Char.isWhitespace c = false) :
    trimL t = t := by
  unfold trimL
  rw [dropWhile_eq_self_of_head Char.isWhitespace t h1]
  rw [dropWhile_eq_self_of_head Char.isWhitespace t.reverse
    (fun c hc => h2 c (by rwa [List.head?_reverse] at hc))]
  exact List.reverse_reverse t

theorem trimL_idem (l : List Char) : trimL (trimL l) = trimL l :=
  trimL_eq_self (trimL l) (trimL_head_not_ws l) (trimL_getLast_not_ws l)

theorem mem_of_mem_trimL (a : Char) (l : List Char) (h : a ∈ trimL l) : a ∈ l := by
  unfold trimL at h
  rw [List.mem_reverse] at h
  have h2 := (List.dropWhile_sublist _).subset h
  rw [List.mem_reverse] at h2
  exact (List.dropWhile_sublist _).subset h2

theorem containsChar_trimL (c : Char) (l : List Char)
    (h : containsChar c l = false) : containsChar c (trimL l) = false := by
  cases hcc : containsChar c (trimL l) with
  | false => rfl
  | true =>
    exfalso
    rw [containsChar, List.any_eq_true] at hcc
    obtain ⟨a, ha, hac⟩ := hcc
    rw [containsChar] at h
    have : l.any (fun a => a = c) = true :=
      List.any_eq_true.mpr ⟨a, mem_of_mem_trimL a l ha, hac⟩
    rw [this] at h
    cases h

/-! ## `splitOnChar` and `joinWith` lemmas (claim C8) -/

theorem splitOnChar_ne_nil (sep : Char) (l : List Char) : splitOnChar sep l ≠ [] := by
  cases l with
  | nil => simp [splitOnChar]
  | cons c cs =>
    unfold splitOnChar
    cases splitOnChar sep cs with
    | nil => simp
    | cons p ps => by_cases hc : c = sep <;> simp [hc]

theorem splitOnChar_length (sep : Char) :
    ∀ l : List Char, containsChar sep l = true → 2 ≤ (splitOnChar sep l).length := by
  intro l
  induction l with
  | nil => intro h; simp [containsChar] at h
  | cons c cs ih =>
    intro h
    cases hsp : splitOnChar sep cs with
    | nil => exact absurd hsp (splitOnChar_ne_nil sep cs)
    | cons p ps =>
      simp only [splitOnChar, hsp]
      by_cases hc : c = sep
      · rw [if_pos hc]; simp
      · rw [if_neg hc]
        have hcs : containsChar sep cs = true := by
          rw [containsChar] at h
          rw [List.any_cons] at h
          rcases Bool.or_eq_true_iff.mp h with h' | h'
          · exact absurd (of_decide_eq_true h') hc
          · exact h'
        have := ih hcs
        rw [hsp] at this
        simp at this ⊢
        omega

theorem splitOnChar_no_sep (sep : Char) :
    ∀ (l : List Char) (p : List Char), p ∈ splitOnChar sep l →
      containsChar sep p = false := by
  intro l
  induction l with
  | nil =>
    intro p hp
    simp [splitOnChar] at hp
    subst hp
    rfl
  | cons c cs ih =>
    intro p hp
    cases hsp : splitOnChar sep cs with
    | nil => exact absurd hsp (splitOnChar_ne_nil sep cs)
    | cons q qs =>
      simp only [splitOnChar, hsp] at hp
      by_cases hc : c = sep
      · rw [if_pos hc] at hp
        rcases List.mem_cons.mp hp with rfl | hp'
        · rfl
        · exact ih p (hsp ▸ hp')
      · rw [if_neg hc] at hp
        rcases List.mem_cons.mp hp with rfl | hp'
        · have hq : containsChar sep q = false := ih q (by rw [hsp]; simp)
          rw [containsChar, List.any_cons]
          rw [containsChar] at hq
          rw [hq]
          simp [hc]
        · exact ih p (by rw [hsp]; exact List.mem_cons_of_mem q hp')

theorem splitOnChar_append (sep : Char) :
    ∀ p : List Char, containsChar sep p = false → ∀ rest : List Char,
      splitOnChar sep (p ++ sep :: rest) = p :: splitOnChar sep rest := by
  intro p
  induction p with
  | nil =>
    intro _ rest
    cases hsp : splitOnChar sep rest with
    | nil => exact absurd hsp (splitOnChar_ne_nil sep rest)
    | cons q qs => simp [splitOnChar, hsp]
  | cons a as ih =>
    intro h rest
    rw [containsChar, List.any_cons] at h
    rw [Bool.or_eq_false_iff] at h
    have ha : ¬(a = sep) := by simpa using h.1
    have has : containsChar sep as = false := h.2
    rw [List.cons_append]
    simp only [splitOnChar, ih has rest]
    rw [if_neg ha]

theorem splitOnChar_of_no_sep (sep : Char) :
    ∀ p : List Char, containsChar sep p = false → splitOnChar sep p = [p] := by
  intro p
  induction p with
  | nil => intro _; rfl
  | cons a as ih =>
    intro h
    rw [containsChar, List.any_cons] at h
    rw [Bool.or_eq_false_iff] at h
    have ha : ¬(a = sep) := by simpa using h.1
    simp only [splitOnChar, ih h.2]
    rw [if_neg ha]

theorem joinWith_cons_space (q : List Char) (ps : List (List Char)) :
    ' ' :: joinWith (chars " / ") (q :: ps) = joinWith (chars " / ") ((' ' :: q) :: ps) := by
  cases ps <;> rfl

theorem sepChars : chars " / " = [' ', '/', ' '] := rfl

theorem joinWith_contains_sep (p q : List Char) (ps : List (List Char)) :
    containsChar '/' (joinWith (chars " / ") (p :: q :: ps)) = true := by
  show containsChar '/' (p ++ chars " / " ++ joinWith (chars " / ") (q :: ps)) = true
  rw [containsChar, List.any_append, List.any_append]
  have : (chars " / ").any (fun a => a = '/') = true := by decide
  rw [this]
  simp

theorem containsChar_append_space (p : List Char)
    (hp : containsChar '/' p = false) : containsChar '/' (p ++ [' ']) = false := by
  rw [containsChar, List.any_append]
  rw [containsChar] at hp
  rw [hp]
  decide

theorem map_eq_self_of_fixed {f : α → α} :
    ∀ l : List α, (∀ a ∈ l, f a = a) → l.map f = l := by
  intro l
  induction l with
  | nil => intro _; rfl
  | cons a as ih =>
    intro h
    rw [List.map_cons, h a (by simp), ih (fun b hb => h b (by simp [hb]))]

/-- Splitting the `" / "`-joined parts back on `/` and trimming recovers the
trimmed parts. -/
theorem split_join_trim :
    ∀ (ps : List (List Char)) (p : List Char),
      containsChar '/' p = false → (∀ q ∈ ps, containsChar '/' q = false) →
      (splitOnChar '/' (joinWith (chars " / ") (p :: ps))).map trimL =
        trimL p :: ps.map trimL := by
  intro ps
  induction ps with
  | nil =>
    intro p hp _
    rw [show joinWith (chars " / ") [p] = p from rfl]
    rw [splitOnChar_of_no_sep '/' p hp]
    rfl
  | cons q ps' ih =>
    intro p hp hq
    have hsep : joinWith (chars " / ") (p :: q :: ps') =
        (p ++ [' ']) ++ '/' :: (' ' :: joinWith (chars " / ") (q :: ps')) := by
      show p ++ chars " / " ++ joinWith (chars " / ") (q :: ps') = _
      rw [sepChars]
      simp
    rw [hsep]
    rw [splitOnChar_append '/' (p ++ [' ']) (containsChar_append_space p hp)
      (' ' :: joinWith (chars " / ") (q :: ps'))]
    rw [joinWith_cons_space]
    have hq' : containsChar '/' (' ' :: q) = false := by
      rw [containsChar, List.any_cons]
      have : containsChar '/' q = false := hq q (by simp)
      rw [containsChar] at this
      rw [this]
      decide
    rw [List.map_cons, trimL_append_space]
    rw [ih (' ' :: q) hq' (fun r hr => hq r (List.mem_cons_of_mem q hr))]
    rw [trimL_cons_space, List.map_cons]

/-! ## Claim theorems -/

/-- Claim C8: `sort_genre` is idempotent on every string: sorting an already
sorted multi-genre string leaves it unchanged, and strings without `/` are
untouched. -/
theorem c8_sort_genre_idempotent (x : String) :
    sort_genre (sort_genre x) = sort_genre x := by
  by_cases hc : containsChar '/' x.data = true
  · have h1 : sort_genre x =
        String.mk (joinWith (chars " / ")
          (stableSort keepLowerLe ((splitOnChar '/' x.data).map trimL))) := by
      unfold sort_genre
      rw [if_pos hc]
    set ps : List (List Char) :=
      stableSort keepLowerLe ((splitOnChar '/' x.data).map trimL) with hps
    have hmem : ∀ p ∈ ps, trimL p = p ∧ containsChar '/' p = false := by
      intro p hp
      rw [hps, stableSort_mem, List.mem_map] at hp
      obtain ⟨p0, hp0, rfl⟩ := hp
      exact ⟨trimL_idem p0,
        containsChar_trimL '/' p0 (splitOnChar_no_sep '/' x.data p0 hp0)⟩
    have hlen : 2 ≤ ps.length := by
      rw [hps, stableSort_length, List.length_map]
      exact splitOnChar_length '/' x.data hc
    obtain ⟨p, q, rest, hshape⟩ : ∃ p q rest, ps = p :: q :: rest := by
      cases hcase : ps with
      | nil => rw [hcase] at hlen; simp at hlen
      | cons p t =>
        cases t with
        | nil => rw [hcase] at hlen; simp at hlen
        | cons q rest => exact ⟨p, q, rest, rfl⟩
    rw [h1]
    unfold sort_genre
    have hdata : (String.mk (joinWith (chars " / ") ps)).data =
        joinWith (chars " / ") ps := rfl
    rw [hdata]
    rw [if_pos (by rw [hshape]; exact joinWith_contains_sep p q rest)]
    congr 1
    have hsplit : (splitOnChar '/' (joinWith (chars " / ") ps)).map trimL = ps := by
      rw [hshape]
      rw [split_join_trim (q :: rest) p
        (hmem p (by rw [hshape]; simp)).2
        (fun r hr => (hmem r (by rw [hshape]; exact List.mem_cons_of_mem p hr)).2)]
      rw [(hmem p (by rw [hshape]; simp)).1]
      congr 1
      exact map_eq_self_of_fixed (q :: rest)
        (fun r hr => (hmem r (by rw [hshape]; exact List.mem_cons_of_mem p hr)).1)
    rw [hsplit, hps]
    exact congrArg _ (stableSort_idem keepLowerLe keepLowerLe_total keepLowerLe_trans
      ((splitOnChar '/' x.data).map trimL))
  · have h1 : sort_genre x = x := by
      unfold sort_genre
      rw [if_neg hc]
    rw [h1, h1]

/-- Claim C10: In the energy classifier's substring pass, the per-level
length-descending sort has no observable effect: the classifier agrees
everywhere with the variant that omits it, since `any` over a level's list
is invariant under reordering. -/
theorem c10_substring_sort_immaterial (g : String) (em : List (Nat × List String)) :
    determine_energy_rating g em = determine_energy_rating_nosort g em := by
  have h : rateComponent em = rateComponentNoSort em := by
    funext c
    unfold rateComponent rateComponentNoSort
    simp only [stableSort_any]
  unfold determine_energy_rating determine_energy_rating_nosort
  rw [h]

/-- Claim C7: `extract_remixer_from_title` on the claim's inputs: the text of
a parenthesized or bracketed span before a remix keyword, parentheses taking
priority over brackets, a leading `DJ ` prefix stripped, and `none` when no
such span exists. -/
theorem c7_extract_remixer :
    extract_remixer_from_title "Song (Ale Lucchi Remix)" = some "Ale Lucchi" ∧
    extract_remixer_from_title "Song (Original Mix)" = some "Original" ∧
    extract_remixer_from_title "Song [A Remix] (B Remix)" = some "B" ∧
    extract_remixer_from_title "Song [Niro Bootleg]" = some "Niro" ∧
    extract_remixer_from_title "Song (DJ Cool Remix)" = some "Cool" ∧
    extract_remixer_from_title "Just A Song" = none :=
  ⟨by decide, by decide, by decide, by decide, by decide, by decide⟩

/-- Claim C1 counterexample: With title `"Track (Club Mix) 128-128"` and the
genre resolving to `"House"` after validation, the final genre is *not*
`"Club / House / Transition"`: the pipeline never re-sorts after appending
the Club and Transition suffixes. -/
theorem c1_counterexample :
    validate_genre "House" "Track (Club Mix) 128-128" none = some "House" ∧
    final_genre "Track (Club Mix) 128-128" "House" ≠ "Club / House / Transition" :=
  ⟨by decide, by decide⟩

/-- Claim C1 amended: The final genre for that scenario is
`"House / Club / Transition"`: the suffixes are appended, in that order,
after normalization, and no alphabetical re-sort takes place afterwards;
the track is then tagged and added to the ledger. -/
theorem c1_suffixes_appended_unsorted :
    validate_genre "House" "Track (Club Mix) 128-128" none = some "House" ∧
    final_genre "Track (Club Mix) 128-128" "House" = "House / Club / Transition" ∧
    process_track [(2, ["house"])] [] "Track (Club Mix) 128-128" none "House" "House" =
      ⟨some "House / Club / Transition", true, ["Track (Club Mix) 128-128"]⟩ :=
  ⟨by decide, by decide, by decide⟩

/-- Claim C2 counterexample: The component `"House Mix"` ends in the bare
word `"mix"` *with* a qualifying genre word before it, yet the
compound-vagueness pattern `\bmix\b$` rejects it, and the validator drops
it (the claim predicts it survives this rule). -/
theorem c2_counterexample :
    forbidden_pattern (chars "house mix") = true ∧
    validate_genre "House Mix" "Great Song" none = none :=
  ⟨by decide, by decide⟩

/-- Claim C3 counterexample: `"Song 12-300 128-94"` contains the two
2–3-digit integers `128` and `94`, hyphen-separated and both within
`60..200`, yet `detect_transition` returns `false`: only the leftmost regex
match (`12-300`, out of range) is checked. -/
theorem c3_counterexample :
    specBpmPairB (chars "Song 12-300 128-94") = true ∧
    detect_transition "Song 12-300 128-94" = false :=
  ⟨by decide, by decide⟩

/-- Claim C4: When the chosen genre is non-empty but its validation comes back
empty, and the AI fallback is itself empty, identical (up to case) to the
chosen genre, or also rejected by validation, the track is skipped entirely:
no tag-store write, no library-database write, and the ledger is returned
unchanged, leaving the title eligible for reprocessing. -/
theorem c4_skip_on_double_rejection (em : List (Nat × List String))
    (ledger : List String) (title : String) (artist : Option String)
    (chosen gemini : String) (hc : chosen ≠ "")
    (h1 : truthyOpt (validate_genre chosen title artist) = none)
    (h2 : gemini = "" ∨
          String.mk (lowerL gemini.data) = String.mk (lowerL chosen.data) ∨
          truthyOpt (validate_genre gemini title artist) = none) :
    process_track em ledger title artist chosen gemini = ⟨none, false, ledger⟩ := by
  have hb : (chosen != "") = true := by simpa [bne_iff_ne] using hc
  rcases h2 with h2 | h2 | h2
  · simp [process_track, hb, h1, h2]
  · simp [process_track, hb, h1, h2]
  · simp [process_track, hb, h1, h2]

/-- Witness for C4: the spec's own scenario — AI genre `"EDM"`, no other
source, fallback identical — is skipped with the ledger untouched. -/
theorem c4_witness :
    truthyOpt (validate_genre "EDM" "My Song" none) = none ∧
    process_track [] ["Prior Song"] "My Song" none "EDM" "EDM" =
      ⟨none, false, ["Prior Song"]⟩ :=
  ⟨by decide,
   c4_skip_on_double_rejection [] ["Prior Song"] "My Song" none "EDM" "EDM"
     (by decide) (by decide) (Or.inr (Or.inl rfl))⟩

/-- Claim C5: The energy classifier: exact membership beats an earlier
substring level, the substring pass runs only when the exact pass found
nothing, the result is the maximum over matched components or absent when
none matched, and any genre containing `"mashup"` is left unrated by
`apply_metadata` without an error. -/
theorem c5_energy_classifier :
    determine_energy_rating "Tech House / Hardstyle"
      [(3, ["tech house"]), (5, ["hardstyle"])] = some 5 ∧
    determine_energy_rating "Tech House" [(2, ["house"]), (4, ["tech house"])] = some 4 ∧
    determine_energy_rating "Deep House" [(2, ["house"])] = some 2 ∧
    determine_energy_rating "Polka" [(3, ["tech house"]), (5, ["hardstyle"])] = none ∧
    (∀ (g : String) (em : List (Nat × List String)),
       isSubstrL (chars "mashup") (lowerL g.data) = true →
       apply_metadata_rating g em = none) := by
  refine ⟨by decide, by decide, by decide, by decide, ?_⟩
  intro g em h
  by_cases hg : (g == "") = true
  · simp [apply_metadata_rating, hg]
  · simp [apply_metadata_rating, hg, h]

/-- Witness for C5's mashup clause at a concrete genre and map. -/
theorem c5_witness :
    isSubstrL (chars "mashup") (lowerL ("Hardstyle Mashup" : String).data) = true ∧
    apply_metadata_rating "Hardstyle Mashup" [(5, ["hardstyle"])] = none :=
  ⟨by decide, c5_energy_classifier.2.2.2.2 "Hardstyle Mashup" [(5, ["hardstyle"])] (by decide)⟩

/-- Claim C9: The remixer-name rejection has no length threshold: any
remixer whose lowercased name occurs in the component drops it.  The
original-artist rejection only applies when the artist string is longer
than 3 characters: for an artist of length at most 3 the validator behaves
exactly as if no artist were supplied.  Concrete anchors: the one-letter
remixer `"X"` (from `"Song (X Edit)"`) kills `"Xylophone"`, while the
3-letter artist `"Fro"` cannot kill `"Afro House"` but the 4-letter
`"Afro"` does. -/
theorem c9_name_rejection_thresholds :
    (∀ (r g : String) (a : Option String),
       isSubstrL (lowerL r.data) (lowerL (trimL g.data)) = true →
       component_survives (some r) a g = false) ∧
    (∀ (g a : String) (r : Option String), a.length ≤ 3 →
       component_survives r (some a) g = component_survives r none g) ∧
    validate_genre "Xylophone" "Song (X Edit)" none = none ∧
    validate_genre "Afro House" "The Best Song" (some "Fro") = some "Afro House" ∧
    validate_genre "Afro House" "The Best Song" (some "Afro") = none := by
  refine ⟨?_, ?_, by decide, by decide, by decide⟩
  · intro r g a h
    unfold component_survives
    dsimp only
    rw [h]
    simp
  · intro g a r h
    have hd : decide (a.length > 3) = false := by
      simp [Nat.not_lt.mpr h]
    unfold component_survives
    dsimp only
    rw [hd]
    simp

/-- A word-bounded occurrence of a non-empty word forces its start inside
the string. -/
theorem wordOccAt_lt (s w : List Char) (i : Nat) (hw : w ≠ [])
    (h : wordOccAt s w i = true) : i < s.length := by
  unfold wordOccAt at h
  rw [Bool.and_eq_true, Bool.and_eq_true] at h
  obtain ⟨⟨hp, _⟩, _⟩ := h
  cases w with
  | nil => exact absurd rfl hw
  | cons c cs =>
    obtain ⟨t, ht⟩ := List.isPrefixOf_iff_prefix.mp hp
    by_contra hlt
    push_neg at hlt
    rw [List.drop_eq_nil_of_le hlt] at ht
    simp at ht

theorem vagueWords_ne_nil : ∀ w ∈ vagueWords, w ≠ [] := by decide

/-- Claim C2 amended: The compound-vagueness rule of `validate_genre`
rejects a component exactly when it has two word-bounded occurrences of
`{dance, edm, electronic}` (no newline between them), or ends in the
word-bounded word `edit`, `mix`, or `remix` — with no exception for a
qualifying genre word before the final `mix`/`edit`/`remix`. -/
theorem c2_forbidden_pattern_characterization (s : List Char) :
    forbidden_pattern s = true ↔
      (TwoVagueOcc s ∨ endsWithWord s (chars "edit") = true ∨
       endsWithWord s (chars "mix") = true ∨ endsWithWord s (chars "remix") = true) := by
  have key : patternTwoVague s = true ↔ TwoVagueOcc s := by
    unfold patternTwoVague TwoVagueOcc
    simp only [List.any_eq_true, List.mem_range, Bool.and_eq_true, decide_eq_true_eq]
    constructor
    · rintro ⟨i, hi, w1, hw1, hocc1, j, hj, w2, hw2, ⟨hle, hnl⟩, hocc2⟩
      exact ⟨w1, w2, i, j, hw1, hw2, hocc1, hle, hnl, hocc2⟩
    · rintro ⟨w1, w2, i, j, hw1, hw2, hocc1, hle, hnl, hocc2⟩
      have hi : i < s.length := wordOccAt_lt s w1 i (vagueWords_ne_nil w1 hw1) hocc1
      have hj : j < s.length := wordOccAt_lt s w2 j (vagueWords_ne_nil w2 hw2) hocc2
      exact ⟨i, by omega, w1, hw1, hocc1, j, by omega, w2, hw2, ⟨hle, hnl⟩, hocc2⟩
  unfold forbidden_pattern
  simp only [Bool.or_eq_true, key]
  tauto

/-- A digit run of positive width starting at `i` forces `i` to be inside
the string. -/
theorem digitsAt_lt (s : List Char) (i d : Nat) (hd : 0 < d)
    (h : digitsAt s i d = true) : i < s.length := by
  unfold digitsAt at h
  rw [List.all_eq_true] at h
  have h0 := h 0 (List.mem_range.mpr hd)
  by_contra hlt
  push_neg at hlt
  have hn : s.get? (i + 0) = none := List.get?_eq_none.mpr (by omega)
  rw [hn] at h0
  simp at h0

/-- Introduction rule for the claim-side containment predicate of C3. -/
theorem specBpm_intro (s : List Char) (i d1 d2 : Nat)
    (hd1 : d1 = 2 ∨ d1 = 3) (hd2 : d2 = 2 ∨ d2 = 3)
    (h1 : nonWordBefore s i = true) (h2 : digitsAt s i d1 = true)
    (h3 : charAt s (i + d1) '-' = true) (h4 : digitsAt s (i + d1 + 1) d2 = true)
    (h5 : nonWordAt s (i + d1 + 1 + d2) = true)
    (h6 : inBpmRange (valAt s i d1) = true)
    (h7 : inBpmRange (valAt s (i + d1 + 1) d2) = true) :
    specBpmPairB s = true := by
  have hi : i < s.length := digitsAt_lt s i d1 (by omega) h2
  unfold specBpmPairB
  rw [List.any_eq_true]
  refine ⟨i, List.mem_range.mpr (by omega), ?_⟩
  rw [List.any_eq_true]
  refine ⟨d1, by rcases hd1 with h | h <;> simp [h], ?_⟩
  rw [List.any_eq_true]
  refine ⟨d2, by rcases hd2 with h | h <;> simp [h], ?_⟩
  simp [h1, h2, h3, h4, h5, h6, h7]

/-- A successful greedy attempt at position `i` yields the claim-side
containment, provided the two captured numbers are in range. -/
theorem tryBpmPair_sound (s : List Char) (i d1 b1 b2 : Nat)
    (hd1 : d1 = 2 ∨ d1 = 3)
    (h : tryBpmPair s i d1 = some (b1, b2))
    (hnb : nonWordBefore s i = true)
    (hr1 : inBpmRange b1 = true) (hr2 : inBpmRange b2 = true) :
    specBpmPairB s = true := by
  unfold tryBpmPair at h
  split at h
  case isTrue hc =>
    rw [Bool.and_eq_true] at hc
    split at h
    case isTrue hc2 =>
      rw [Bool.and_eq_true] at hc2
      injection h with hp
      injection hp with hb1 hb2
      subst hb1; subst hb2
      refine specBpm_intro s i d1 3 hd1 (Or.inr rfl) hnb hc.1 hc.2 hc2.1 ?_ hr1 hr2
      have e : i + d1 + 1 + 3 = i + d1 + 4 := by omega
      rw [e]; exact hc2.2
    case isFalse =>
      split at h
      case isTrue hc3 =>
        rw [Bool.and_eq_true] at hc3
        injection h with hp
        injection hp with hb1 hb2
        subst hb1; subst hb2
        refine specBpm_intro s i d1 2 hd1 (Or.inl rfl) hnb hc.1 hc.2 hc3.1 ?_ hr1 hr2
        have e : i + d1 + 1 + 2 = i + d1 + 3 := by omega
        rw [e]; exact hc3.2
      case isFalse => exact absurd h (by simp)
  case isFalse => exact absurd h (by simp)

/-- Claim C3 amended: `detect_transition` range-checks only the leftmost
greedy match of `\b(\d{2,3})-(\d{2,3})\b`, so a `true` result guarantees the
title contains an in-range hyphen-separated pair of 2–3-digit integers
(necessity), while sufficiency fails (see the counterexample); both spec
examples hold. -/
theorem c3_detect_transition_sound :
    (∀ t : String, detect_transition t = true → specBpmPairB t.data = true) ∧
    detect_transition "Song (128-94)" = true ∧
    detect_transition "Song (12-3000)" = false := by
  refine ⟨?_, by decide, by decide⟩
  intro t h
  unfold detect_transition at h
  cases hm : firstBpmMatch t.data with
  | none => rw [hm] at h; simp at h
  | some p =>
    obtain ⟨b1, b2⟩ := p
    rw [hm] at h
    rw [Bool.and_eq_true] at h
    unfold firstBpmMatch at hm
    obtain ⟨i, _, hi⟩ := List.exists_of_findSome?_eq_some hm
    unfold matchBpmAt at hi
    split at hi
    case isTrue hnb =>
      split at hi
      case h_1 r heq =>
        injection hi with hr
        subst hr
        exact tryBpmPair_sound t.data i 3 b1 b2 (Or.inr rfl) heq hnb h.1 h.2
      case h_2 =>
        exact tryBpmPair_sound t.data i 2 b1 b2 (Or.inl rfl) hi hnb h.1 h.2
    case isFalse => exact absurd hi (by simp)

/-- Witness for C3's soundness direction at a concrete title. -/
theorem c3_witness :
    detect_transition "Song (128-94)" = true ∧
    specBpmPairB (chars "Song (128-94)") = true :=
  ⟨by decide, c3_detect_transition_sound.1 "Song (128-94)" (by decide)⟩

/-! ## Claim C6: characterization of `parse_response` -/

theorem prefix_excl (A B l : List Char) (h : A.isPrefixOf l = true)
    (hAB : A.isPrefixOf B = false) (hBA : B.isPrefixOf A = false) :
    B.isPrefixOf l = false := by
  cases hB : B.isPrefixOf l
  · rfl
  · rcases List.prefix_or_prefix_of_prefix ( List.isPrefixOf_iff_prefix.mp h)
      ( List.isPrefixOf_iff_prefix.mp hB) with h1 | h1
    · rw [ List.isPrefixOf_iff_prefix.mpr h1] at hAB; cases hAB
    · rw [ List.isPrefixOf_iff_prefix.mpr h1] at hBA; cases hBA

theorem lastStarting_shift (L : List Char) :
    ∀ (lines : List (List Char)) (acc : Option (List Char)),
      lines.foldl (fun acc l => if L.isPrefixOf l then some l else acc) acc =
        match lines.foldl (fun acc l => if L.isPrefixOf l then some l else acc) none with
        | some x => some x
        | none => acc := by
  intro lines
  induction lines with
  | nil => intro acc; rfl
  | cons m ms ih =>
    intro acc
    simp only [List.foldl_cons]
    by_cases hm : L.isPrefixOf m = true
    · simp only [if_pos hm]
      rw [ih (some m)]
      cases List.foldl (fun acc l => if L.isPrefixOf l then some l else acc) none ms <;> rfl
    · simp only [if_neg hm]
      exact ih acc

/-- Each field of the fold built by `parse_response` is determined by the
last line carrying its label (later lines overwrite the dict entry). -/
theorem foldl_field {α : Type} (get : Info → Option α) (L : List Char)
    (tr : List Char → α)
    (hupd : ∀ st l, get (updLine st l) =
      if L.isPrefixOf l then some (tr l) else get st) :
    ∀ (lines : List (List Char)) (st : Info),
      get (lines.foldl updLine st) =
        match lastStarting L lines with
        | some l => some (tr l)
        | none => get st := by
  intro lines
  induction lines with
  | nil => intro st; rfl
  | cons l ls ih =>
    intro st
    have hcons : lastStarting L (l :: ls) =
        match lastStarting L ls with
        | some x => some x
        | none => if L.isPrefixOf l then some l else none := by
      unfold lastStarting
      simp only [List.foldl_cons]
      exact lastStarting_shift L ls (if L.isPrefixOf l then some l else none)
    rw [List.foldl_cons, ih (updLine st l), hcons, hupd st l]
    cases lastStarting L ls <;> cases hL : L.isPrefixOf l <;> simp

theorem updLine_is_remix (st : Info) (l : List Char) :
    (updLine st l).is_remix =
      if isRemixLabel.isPrefixOf l then
        some (String.mk (lowerL (payloadAfter isRemixLabel l)) == "yes")
      else st.is_remix := by
  by_cases h1 : isRemixLabel.isPrefixOf l = true <;>
    simp [updLine, h1, apply_ite Info.is_remix]

theorem updLine_genre (st : Info) (l : List Char) :
    (updLine st l).genre =
      if genreLabel.isPrefixOf l then
        some (sort_genre (String.mk (payloadAfter genreLabel l)))
      else st.genre := by
  by_cases h2 : genreLabel.isPrefixOf l = true
  · have h1 : isRemixLabel.isPrefixOf l = false :=
      prefix_excl genreLabel isRemixLabel l h2 (by decide) (by decide)
    simp [updLine, h1, h2]
  · simp [updLine, h2, apply_ite Info.genre]

theorem updLine_artists (st : Info) (l : List Char) :
    (updLine st l).artists =
      if artistsLabel.isPrefixOf l then
        some (String.mk (payloadAfter artistsLabel l))
      else st.artists := by
  by_cases h3 : artistsLabel.isPrefixOf l = true
  · have h1 : isRemixLabel.isPrefixOf l = false :=
      prefix_excl artistsLabel isRemixLabel l h3 (by decide) (by decide)
    have h2 : genreLabel.isPrefixOf l = false :=
      prefix_excl artistsLabel genreLabel l h3 (by decide) (by decide)
    simp [updLine, h1, h2, h3]
  · simp [updLine, h3, apply_ite Info.artists]

theorem updLine_year (st : Info) (l : List Char) :
    (updLine st l).year =
      if yearLabel.isPrefixOf l then
        some (String.mk (payloadAfter yearLabel l))
      else st.year := by
  by_cases h4 : yearLabel.isPrefixOf l = true
  · have h1 : isRemixLabel.isPrefixOf l = false :=
      prefix_excl yearLabel isRemixLabel l h4 (by decide) (by decide)
    have h2 : genreLabel.isPrefixOf l = false :=
      prefix_excl yearLabel genreLabel l h4 (by decide) (by decide)
    have h3 : artistsLabel.isPrefixOf l = false :=
      prefix_excl yearLabel artistsLabel l h4 (by decide) (by decide)
    simp [updLine, h1, h2, h3, h4]
  · simp [updLine, h4, apply_ite Info.year]

theorem updLine_situation (st : Info) (l : List Char) :
    (updLine st l).situation =
      if situationLabel.isPrefixOf l then
        some (String.mk (payloadAfter situationLabel l))
      else st.situation := by
  by_cases h5 : situationLabel.isPrefixOf l = true
  · have h1 : isRemixLabel.isPrefixOf l = false :=
      prefix_excl situationLabel isRemixLabel l h5 (by decide) (by decide)
    have h2 : genreLabel.isPrefixOf l = false :=
      prefix_excl situationLabel genreLabel l h5 (by decide) (by decide)
    have h3 : artistsLabel.isPrefixOf l = false :=
      prefix_excl situationLabel artistsLabel l h5 (by decide) (by decide)
    have h4 : yearLabel.isPrefixOf l = false :=
      prefix_excl situationLabel yearLabel l h5 (by decide) (by decide)
    simp [updLine, h1, h2, h3, h4, h5]
  · simp [updLine, h5, apply_ite Info.situation]

theorem updLine_commercial (st : Info) (l : List Char) :
    (updLine st l).commercial =
      if commercialLabel.isPrefixOf l then
        some (String.mk (payloadAfter commercialLabel l))
      else st.commercial := by
  by_cases h6 : commercialLabel.isPrefixOf l = true
  · have h1 : isRemixLabel.isPrefixOf l = false :=
      prefix_excl commercialLabel isRemixLabel l h6 (by decide) (by decide)
    have h2 : genreLabel.isPrefixOf l = false :=
      prefix_excl commercialLabel genreLabel l h6 (by decide) (by decide)
    have h3 : artistsLabel.isPrefixOf l = false :=
      prefix_excl commercialLabel artistsLabel l h6 (by decide) (by decide)
    have h4 : yearLabel.isPrefixOf l = false :=
      prefix_excl commercialLabel yearLabel l h6 (by decide) (by decide)
    have h5 : situationLabel.isPrefixOf l = false :=
      prefix_excl commercialLabel situationLabel l h6 (by decide) (by decide)
    simp [updLine, h1, h2, h3, h4, h5, h6]
  · simp [updLine, h6, apply_ite Info.commercial]

/-- A line matching none of the six labels leaves the record unchanged. -/
theorem updLine_no_label (st : Info) (l : List Char) (h : anyLabel l = false) :
    updLine st l = st := by
  unfold anyLabel at h
  simp only [Bool.or_eq_false_iff] at h
  obtain ⟨⟨⟨⟨⟨h1, h2⟩, h3⟩, h4⟩, h5⟩, h6⟩ := h
  simp [updLine, h1, h2, h3, h4, h5, h6]

/-- Claim C6: `parse_response` is a total function whose record is fully
characterized line-locally: each field equals the trimmed text after the
first colon of the *last* line starting with its label (so line order among
different labels is irrelevant and extra lines are ignored), absent labels
leave the field absent, `Is Remix` maps a case-insensitive `"yes"` to
`true` and anything else to `false`, the `Commercial Friendly` flag (as
consumed downstream) is `true` exactly on a case-insensitive `"yes"`, and a
reply with no recognized line yields the all-absent record. -/
theorem c6_parse_response_characterization (r : String) :
    ((parse_response r).is_remix =
      (lastStarting isRemixLabel (splitlinesL r.data)).map
        (fun l => String.mk (lowerL (payloadAfter isRemixLabel l)) == "yes")) ∧
    ((parse_response r).genre =
      (lastStarting genreLabel (splitlinesL r.data)).map
        (fun l => sort_genre (String.mk (payloadAfter genreLabel l)))) ∧
    ((parse_response r).artists =
      (lastStarting artistsLabel (splitlinesL r.data)).map
        (fun l => String.mk (payloadAfter artistsLabel l))) ∧
    ((parse_response r).year =
      (lastStarting yearLabel (splitlinesL r.data)).map
        (fun l => String.mk (payloadAfter yearLabel l))) ∧
    ((parse_response r).situation =
      (lastStarting situationLabel (splitlinesL r.data)).map
        (fun l => String.mk (payloadAfter situationLabel l))) ∧
    ((parse_response r).commercial =
      (lastStarting commercialLabel (splitlinesL r.data)).map
        (fun l => String.mk (payloadAfter commercialLabel l))) ∧
    (commercialFlag (parse_response r) = true ↔
      (lastStarting commercialLabel (splitlinesL r.data)).map
        (fun l => String.mk (lowerL (payloadAfter commercialLabel l))) = some "yes") ∧
    ((∀ l ∈ splitlinesL r.data, anyLabel l = false) → parse_response r = {}) := by
  have hrem := foldl_field Info.is_remix isRemixLabel
    (fun l => String.mk (lowerL (payloadAfter isRemixLabel l)) == "yes")
    updLine_is_remix (splitlinesL r.data) {}
  have hgen := foldl_field Info.genre genreLabel
    (fun l => sort_genre (String.mk (payloadAfter genreLabel l)))
    updLine_genre (splitlinesL r.data) {}
  have hart := foldl_field Info.artists artistsLabel
    (fun l => String.mk (payloadAfter artistsLabel l))
    updLine_artists (splitlinesL r.data) {}
  have hyear := foldl_field Info.year yearLabel
    (fun l => String.mk (payloadAfter yearLabel l))
    updLine_year (splitlinesL r.data) {}
  have hsit := foldl_field Info.situation situationLabel
    (fun l => String.mk (payloadAfter situationLabel l))
    updLine_situation (splitlinesL r.data) {}
  have hcom := foldl_field Info.commercial commercialLabel
    (fun l => String.mk (payloadAfter commercialLabel l))
    updLine_commercial (splitlinesL r.data) {}
  refine ⟨?_, ?_, ?_, ?_, ?_, ?_, ?_, ?_⟩
  · rw [parse_response, hrem]; cases lastStarting isRemixLabel (splitlinesL r.data) <;> rfl
  · rw [parse_response, hgen]; cases lastStarting genreLabel (splitlinesL r.data) <;> rfl
  · rw [parse_response, hart]; cases lastStarting artistsLabel (splitlinesL r.data) <;> rfl
  · rw [parse_response, hyear]; cases lastStarting yearLabel (splitlinesL r.data) <;> rfl
  · rw [parse_response, hsit]; cases lastStarting situationLabel (splitlinesL r.data) <;> rfl
  · rw [parse_response, hcom]; cases lastStarting commercialLabel (splitlinesL r.data) <;> rfl
  · unfold commercialFlag
    rw [parse_response, hcom]
    cases hl : lastStarting commercialLabel (splitlinesL r.data) with
    | none => simp
    | some l =>
      simp only [Option.map_some']
      constructor
      · intro h
        rw [Bool.and_eq_true] at h
        have := beq_iff_eq.mp h.2
        simp only [Option.some.injEq]
        exact this
      · intro h
        simp only [Option.some.injEq] at h
        rw [Bool.and_eq_true]
        constructor
        · cases hp : payloadAfter commercialLabel l with
          | nil => rw [hp] at h; exact absurd h (by decide)
          | cons c cs =>
            rw [bne_iff_ne]
            intro hcontra
            have := congrArg String.data hcontra
            simp at this
        · exact beq_iff_eq.mpr h
  · intro h
    unfold parse_response
    have : ∀ (lines : List (List Char)) (st : Info),
        (∀ l ∈ lines, anyLabel l = false) → lines.foldl updLine st = st := by
      intro lines
      induction lines with
      | nil => intro st _; rfl
      | cons l ls ih =>
        intro st hall
        rw [List.foldl_cons, updLine_no_label st l (hall l (by simp))]
        exact ih st fun m hm => hall m (by simp [hm])
    exact this (splitlinesL r.data) {} h

/-- Witness for C6's all-absent clause at a concrete unlabeled reply. -/
theorem c6_witness : parse_response "hello\nworld" = {} :=
  (c6_parse_response_characterization "hello\nworld").2.2.2.2.2.2.2 (by decide)

/-- Witness for C9 at the concrete inputs named in the theorem. -/
theorem c9_witness :
    isSubstrL (lowerL ("X" : String).data) (lowerL (trimL ("Xylophone" : String).data)) = true ∧
    component_survives (some "X") none "Xylophone" = false ∧
    component_survives none (some "Fro") "Afro House" = component_survives none none "Afro House" :=
  ⟨by decide,
   c9_name_rejection_thresholds.1 "X" "Xylophone" none (by decide),
   c9_name_rejection_thresholds.2.1 "Afro House" "Fro" none (by decide)⟩

end AutoTag
